import Mathlib

/-!
Verification of the CKEditor5 model-layer excerpt: the engine model Node class
(attributes, parent-relative position accessors, ancestor walks, serialization)
and the documentlist view-element helpers.

The tree is embedded as a heap of node records indexed by node ids, so that the
parent pointer and the parent's child list are independent pieces of state: this
is what lets the corrupted-tree behaviour (a node whose parent does not contain
it) be stated and settled.  Upward walks through parent pointers are written
with explicit fuel, mirroring the while-loops of the source; theorems assume
enough fuel via the HasDepth predicate.
-/

/-- JavaScript attribute values, with a distinguished undefined value (a JS Map
can store undefined, and Map.get returns undefined both for a missing key and
for a stored undefined). -/
inductive JSValue where
  | undef
  | bool (b : Bool)
  | num (n : Int)
  | str (s : String)
deriving DecidableEq

abbrev NodeId := Nat

/-- One model node: the parent pointer and attribute map of the Node class,
plus the state of its subclasses that the accessors dispatch into (an Element's
ordered child list, a Text node's offset size, a RootElement's owning
document). -/
structure NodeRec where
  parent : Option NodeId
  children : List NodeId
  offsetSize : Nat
  attrs : List (String × JSValue)
  ownDoc : Option Nat
deriving DecidableEq

/-- The heap: every node id resolves to a node record. -/
abbrev Forest := NodeId → NodeRec

/-- JS Map.prototype.set on an association list: overwrite in place when the
key is present (keeping its position), append otherwise. -/
def mapSet (m : List (String × JSValue)) (k : String) (v : JSValue) :
    List (String × JSValue) :=
  if (m.lookup k).isSome then m.map (fun p => if p.1 = k then (k, v) else p)
  else m ++ [(k, v)]

/-- Modelled from the spec: toMap from ckeditor5-utils (not in the excerpt) —
builds a Map from a list of entries with new-Map semantics (later duplicate
keys overwrite earlier ones). -/
def toMap (l : List (String × JSValue)) : List (String × JSValue) :=
  l.foldl (fun m kv => mapSet m kv.1 kv.2) []

/-- The keys of an attribute map are pairwise distinct; every map built through
the Node API has this shape. -/
abbrev MapWF (m : List (String × JSValue)) : Prop := (m.map Prod.fst).Nodup

namespace NodeRec

/-- Node constructor: parent is null, attributes are toMap of the argument. -/
def mkNode (attrs : List (String × JSValue)) : NodeRec :=
  { parent := none, children := [], offsetSize := 1, attrs := toMap attrs,
    ownDoc := none }

/-- Node.hasAttribute: membership test on the attribute map. -/
def hasAttribute (r : NodeRec) (k : String) : Bool :=
  (r.attrs.lookup k).isSome

/-- Node.getAttribute: Map.get — the stored value, or undefined when the key
is absent. -/
def getAttribute (r : NodeRec) (k : String) : JSValue :=
  (r.attrs.lookup k).getD JSValue.undef

/-- Node.getAttributes: the (key, value) entries of the attribute map. -/
def getAttributes (r : NodeRec) : List (String × JSValue) :=
  r.attrs

/-- Node.getAttributeKeys. -/
def getAttributeKeys (r : NodeRec) : List String :=
  r.attrs.map Prod.fst

/-- Node._setAttribute. -/
def setAttribute (r : NodeRec) (k : String) (v : JSValue) : NodeRec :=
  { r with attrs := mapSet r.attrs k v }

end NodeRec

/-- The plain object produced by Node.toJSON: the attributes key is present
exactly when it was assigned. -/
structure NodeJSON where
  attributes : Option (List (String × JSValue))
deriving DecidableEq

/-- Node.toJSON: assigns the attributes key only when the attribute map is
non-empty. -/
def NodeRec.toJSON (r : NodeRec) : NodeJSON :=
  { attributes := if r.attrs.length ≠ 0 then some r.attrs else none }

namespace Node

/-- Modelled from the spec: Element.getChildIndex (not in the excerpt) — the
position of the node among the parent's children, or none when the child list
does not contain it. -/
def getChildIndex (f : Forest) (p n : NodeId) : Option Nat :=
  if n ∈ (f p).children then some ((f p).children.indexOf n) else none

/-- Modelled from the spec: Element.getChildStartOffset (not in the excerpt) —
the sum of offsetSize over the children preceding the node, or none when the
child list does not contain it. -/
def getChildStartOffset (f : Forest) (p n : NodeId) : Option Nat :=
  (getChildIndex f p n).map
    (fun i => (((f p).children.take i).map (fun c => (f c).offsetSize)).sum)

/-- Modelled from the spec: Element.getChild (not in the excerpt) — the child
at the given index, or none when the index is out of range (a negative index
reads as undefined in JS). -/
def getChild (f : Forest) (p : NodeId) (i : Int) : Option NodeId :=
  if h : 0 ≤ i ∧ i.toNat < (f p).children.length then
    some ((f p).children.get ⟨i.toNat, h.2⟩)
  else none

/-- Node.index: null when there is no parent; raises
model-node-not-found-in-parent when the parent's child list does not contain
this node; otherwise the position among the parent's children. -/
def index (f : Forest) (n : NodeId) : Except String (Option Nat) :=
  match (f n).parent with
  | none => Except.ok none
  | some p =>
    match getChildIndex f p n with
    | none => Except.error "model-node-not-found-in-parent"
    | some pos => Except.ok (some pos)

/-- Node.startOffset: null when there is no parent; raises
model-node-not-found-in-parent when the parent's child list does not contain
this node; otherwise the sum of offsetSize of the preceding siblings. -/
def startOffset (f : Forest) (n : NodeId) : Except String (Option Nat) :=
  match (f n).parent with
  | none => Except.ok none
  | some p =>
    match getChildStartOffset f p n with
    | none => Except.error "model-node-not-found-in-parent"
    | some pos => Except.ok (some pos)

/-- Node.endOffset: null when there is no parent, otherwise startOffset plus
offsetSize (propagating the corruption error of startOffset). -/
def endOffset (f : Forest) (n : NodeId) : Except String (Option Nat) :=
  match (f n).parent with
  | none => Except.ok none
  | some _ =>
    match startOffset f n with
    | Except.error e => Except.error e
    | Except.ok none => Except.ok none
    | Except.ok (some s) => Except.ok (some (s + (f n).offsetSize))

/-- Node.nextSibling: null when index is null, otherwise the parent's child at
index + 1 (or null past the end). -/
def nextSibling (f : Forest) (n : NodeId) : Except String (Option NodeId) :=
  match (f n).parent with
  | none => Except.ok none
  | some p =>
    match getChildIndex f p n with
    | none => Except.error "model-node-not-found-in-parent"
    | some i => Except.ok (getChild f p ((i : Int) + 1))

/-- Node.previousSibling: null when index is null, otherwise the parent's
child at index - 1 (getChild of -1 is null). -/
def previousSibling (f : Forest) (n : NodeId) : Except String (Option NodeId) :=
  match (f n).parent with
  | none => Except.ok none
  | some p =>
    match getChildIndex f p n with
    | none => Except.error "model-node-not-found-in-parent"
    | some i => Except.ok (getChild f p ((i : Int) - 1))

/-- The while-loop of the root getter: follow parent pointers while a parent
exists, bounded by fuel. -/
def rootAux (f : Forest) : Nat → NodeId → NodeId
  | 0, n => n
  | fuel + 1, n =>
    match (f n).parent with
    | none => n
    | some p => rootAux f fuel p

/-- Node.root: the top-most ancestor; the node itself when it has no parent. -/
def root (f : Forest) (fuel : Nat) (n : NodeId) : NodeId :=
  rootAux f fuel n

/-- Node.document: null when the node is its own root; otherwise the owning
document of the root, when the root is a RootElement that has one. -/
def document (f : Forest) (fuel : Nat) (n : NodeId) : Option Nat :=
  if root f fuel n = n then none
  else (f (root f fuel n)).ownDoc

/-- The while-loop of getPath: climb to the root, collecting each level's
startOffset at the front, bounded by fuel.  The startOffset read can raise the
corruption error. -/
def getPathAux (f : Forest) : Nat → NodeId → Except String (List Nat)
  | 0, _ => Except.ok []
  | fuel + 1, n =>
    match (f n).parent with
    | none => Except.ok []
    | some p =>
      match getChildStartOffset f p n with
      | none => Except.error "model-node-not-found-in-parent"
      | some off => (getPathAux f fuel p).map (fun rest => rest ++ [off])

/-- Node.getPath. -/
def getPath (f : Forest) (fuel : Nat) (n : NodeId) : Except String (List Nat) :=
  getPathAux f fuel n

/-- The while-loop shared by root, getAncestors and getCommonAncestor: the
chain of nodes from a starting point up through parent pointers, bounded by
fuel. -/
def chainUp (f : Forest) : Nat → Option NodeId → List NodeId
  | _, none => []
  | 0, some _ => []
  | fuel + 1, some n => n :: chainUp f fuel (f n).parent

/-- Node.getAncestors: starts from the node itself when includeSelf, from the
parent otherwise; push (node first) when parentFirst, unshift (root first)
otherwise. -/
def getAncestors (f : Forest) (fuel : Nat) (includeSelf parentFirst : Bool)
    (n : NodeId) : List NodeId :=
  let start := if includeSelf then some n else (f n).parent
  if parentFirst then chainUp f fuel start else (chainUp f fuel start).reverse

/-- Length of the longest common prefix of two node lists: the loop index i of
getCommonAncestor when it stops (node objects are always truthy, so the loop
stops exactly at the first mismatch or at the end of either list). -/
def commonPrefixLen : List NodeId → List NodeId → Nat
  | a :: as, b :: bs => if a = b then commonPrefixLen as bs + 1 else 0
  | _, _ => 0

/-- Node.getCommonAncestor: compares the two getAncestors chains element by
element from the front and returns the element before the first mismatch, or
null when the chains already differ at position 0. -/
def getCommonAncestor (f : Forest) (fuel : Nat) (includeSelf parentFirst : Bool)
    (a b : NodeId) : Option NodeId :=
  let ancestorsA := getAncestors f fuel includeSelf parentFirst a
  let ancestorsB := getAncestors f fuel includeSelf parentFirst b
  let i := commonPrefixLen ancestorsA ancestorsB
  if i = 0 then none else ancestorsA[i - 1]?

end Node

/-- The node n sits at depth d: d parent steps reach a parentless node. -/
inductive HasDepth (f : Forest) : NodeId → Nat → Prop
  | root {n : NodeId} : (f n).parent = none → HasDepth f n 0
  | step {n p : NodeId} {d : Nat} :
      (f n).parent = some p → HasDepth f p d → HasDepth f n (d + 1)

/-- The node appears in its parent's child list (vacuously true for a
parentless node): the structural invariant whose violation makes index and
startOffset raise. -/
def inParent (f : Forest) (n : NodeId) : Bool :=
  match (f n).parent with
  | none => true
  | some p => decide (n ∈ (f p).children)

/-- The startOffset value of a node, when it is defined (the node has a parent
containing it). -/
def offsetStepOf (f : Forest) (x : NodeId) : Option Nat :=
  match Node.startOffset f x with
  | Except.ok (some off) => some off
  | _ => none

/-- The startOffset values of a list of nodes, defined only when every listed
node has one. -/
def offsetsOf (f : Forest) : List NodeId → Option (List Nat)
  | [] => some []
  | x :: xs =>
    (offsetStepOf f x).bind (fun off => (offsetsOf f xs).map (fun rest => off :: rest))

/-- A root-first node list in which position i holds a node of depth i and
each listed node's parent is the previous entry: the shape of every reversed
parent chain. -/
def GoodChain (f : Forest) (ch : List NodeId) : Prop :=
  (∀ i x, ch[i]? = some x → HasDepth f x i) ∧
  (∀ i y, ch[i + 1]? = some y → (f y).parent = ch[i]?)

/-- An attribute element of the view layer, as produced by the downcast
writer: a tag name, a wrapping priority and an identifier. -/
structure ViewAttributeElement where
  name : String
  priority : Nat
  id : String
deriving DecidableEq

/-- Modelled from the spec: getViewElementNameForListType (implementation not
in the excerpt; its tests are) — numbered maps to ol, every other list type to
ul. -/
def getViewElementNameForListType (t : String) : String :=
  if t = "numbered" then "ol" else "ul"

/-- Modelled from the spec: the priority createListElement assigns at a given
indent — strictly increasing with indent, interleaving below the list item
priority of the same indent, bounded below 80. -/
def listElementPriority (indent : Nat) : Nat := 2 * indent

/-- Modelled from the spec: the priority createListItemElement assigns at a
given indent — strictly between the list element priorities of this indent and
the next, bounded below 80. -/
def listItemElementPriority (indent : Nat) : Nat := 2 * indent + 1

/-- Modelled from the spec: createListElement (implementation not in the
excerpt; its tests are) — an attribute element named by the list type, with
the indent-derived priority and the given id. -/
def createListElement (indent : Nat) (t : String) (elemId : String) :
    ViewAttributeElement :=
  { name := getViewElementNameForListType t,
    priority := listElementPriority indent, id := elemId }

/-- Modelled from the spec: createListItemElement (implementation not in the
excerpt; its tests are) — an li attribute element with the indent-derived
priority and the given id. -/
def createListItemElement (indent : Nat) (elemId : String) :
    ViewAttributeElement :=
  { name := "li", priority := listItemElementPriority indent, id := elemId }

/-- A small healthy tree: 0 is the root with children 1 and 2; node 1 is a
text-like node of size 3. -/
def sampleForest : Forest := fun n =>
  match n with
  | 0 => { parent := none, children := [1, 2], offsetSize := 1, attrs := [],
           ownDoc := some 7 }
  | 1 => { parent := some 0, children := [], offsetSize := 3, attrs := [],
           ownDoc := none }
  | 2 => { parent := some 0, children := [], offsetSize := 1, attrs := [],
           ownDoc := none }
  | _ => { parent := none, children := [], offsetSize := 1, attrs := [],
           ownDoc := none }

/-- A three-level tree: root 0 over element 1 over a size-2 text node 2 and a
size-1 node 3. -/
def deepForest : Forest := fun n =>
  match n with
  | 0 => { parent := none, children := [1], offsetSize := 1, attrs := [],
           ownDoc := none }
  | 1 => { parent := some 0, children := [2, 3], offsetSize := 1, attrs := [],
           ownDoc := none }
  | 2 => { parent := some 1, children := [], offsetSize := 2, attrs := [],
           ownDoc := none }
  | 3 => { parent := some 1, children := [], offsetSize := 1, attrs := [],
           ownDoc := none }
  | _ => { parent := none, children := [], offsetSize := 1, attrs := [],
           ownDoc := none }

/-- A corrupted tree: node 1 claims parent 0, but 0 has no children. -/
def corruptForest : Forest := fun n =>
  match n with
  | 0 => { parent := none, children := [], offsetSize := 1, attrs := [],
           ownDoc := none }
  | 1 => { parent := some 0, children := [], offsetSize := 1, attrs := [],
           ownDoc := none }
  | _ => { parent := none, children := [], offsetSize := 1, attrs := [],
           ownDoc := none }

/-- Lookup succeeds exactly when the key occurs among the entry keys. -/
theorem lookup_isSome_iff_mem_keys (m : List (String × JSValue)) (k : String) :
    (m.lookup k).isSome = true ↔ k ∈ m.map Prod.fst := by
  induction m with
  | nil => simp [List.lookup]
  | cons a as ih =>
    rcases a with ⟨ka, va⟩
    by_cases hk : k = ka
    · subst hk
      simp [List.lookup]
    · have hbeq : (k == ka) = false := beq_eq_false_iff_ne.mpr hk
      simp only [List.lookup, hbeq, List.map_cons, List.mem_cons]
      rw [ih]
      exact ⟨Or.inr, fun h => h.elim (fun h1 => absurd h1 hk) id⟩

/-- Folding mapSet over entries whose keys are fresh for the accumulator (and
pairwise distinct) just appends them. -/
theorem foldl_mapSet_of_nodup (l : List (String × JSValue)) :
    ∀ acc : List (String × JSValue),
      (((acc ++ l).map Prod.fst)).Nodup →
      l.foldl (fun m kv => mapSet m kv.1 kv.2) acc = acc ++ l := by
  induction l with
  | nil => intro acc _; simp
  | cons kv rest ih =>
    intro acc hnd
    have hmem : kv.1 ∉ acc.map Prod.fst := by
      intro hmem
      rw [List.map_append] at hnd
      rcases List.nodup_append.mp hnd with ⟨_, _, hdisj⟩
      exact hdisj hmem (by simp)
    have hlook : (acc.lookup kv.1).isSome = false := by
      rw [Bool.eq_false_iff]
      intro hsome
      exact hmem ((lookup_isSome_iff_mem_keys acc kv.1).mp hsome)
    have hset : mapSet acc kv.1 kv.2 = acc ++ [kv] := by
      unfold mapSet
      rw [hlook]
      simp
    rw [List.foldl_cons, hset, ih (acc ++ [kv]) (by simpa using hnd)]
    simp

/-- toMap is the identity on an association list with pairwise-distinct
keys. -/
theorem toMap_eq_self (m : List (String × JSValue)) (h : MapWF m) :
    toMap m = m := by
  have := foldl_mapSet_of_nodup m [] (by simpa [MapWF] using h)
  simpa [toMap] using this

/-- C1: for a node contained in its parent's child list, index is the node's
position among the parent's children and startOffset is the sum of offsetSize
over the preceding siblings. -/
theorem C1_index_and_startOffset (f : Forest) (n p : NodeId)
    (hp : (f n).parent = some p) (hmem : n ∈ (f p).children) :
    Node.index f n = Except.ok (some ((f p).children.indexOf n)) ∧
    Node.startOffset f n = Except.ok (some
      ((((f p).children.take ((f p).children.indexOf n)).map
        (fun c => (f c).offsetSize)).sum)) := by
  unfold Node.index Node.startOffset Node.getChildStartOffset Node.getChildIndex
  rw [hp]
  simp [hmem]

/-- Witness for C1 on the sample tree: node 2 is the second child of 0 and
starts at offset 3 (after the size-3 text node 1). -/
theorem C1_witness :
    (sampleForest 2).parent = some 0 ∧ 2 ∈ (sampleForest 0).children ∧
    (Node.index sampleForest 2 =
        Except.ok (some ((sampleForest 0).children.indexOf 2)) ∧
      Node.startOffset sampleForest 2 = Except.ok (some
        ((((sampleForest 0).children.take
            ((sampleForest 0).children.indexOf 2)).map
          (fun c => (sampleForest c).offsetSize)).sum))) :=
  ⟨by decide, by decide,
    C1_index_and_startOffset sampleForest 2 0 (by decide) (by decide)⟩

/-- C2: for a node whose parent's child list does not contain it, both index
and startOffset raise the error carrying the stable code
model-node-not-found-in-parent; neither returns an ok value. -/
theorem C2_corruption_raises (f : Forest) (n p : NodeId)
    (hp : (f n).parent = some p) (hmem : n ∉ (f p).children) :
    Node.index f n = Except.error "model-node-not-found-in-parent" ∧
    Node.startOffset f n = Except.error "model-node-not-found-in-parent" := by
  unfold Node.index Node.startOffset Node.getChildStartOffset Node.getChildIndex
  rw [hp]
  simp [hmem]

/-- Witness for C2 on the corrupted tree: node 1 points at parent 0 whose
child list is empty. -/
theorem C2_witness :
    (corruptForest 1).parent = some 0 ∧ 1 ∉ (corruptForest 0).children ∧
    (Node.index corruptForest 1 =
        Except.error "model-node-not-found-in-parent" ∧
      Node.startOffset corruptForest 1 =
        Except.error "model-node-not-found-in-parent") :=
  ⟨by decide, by decide,
    C2_corruption_raises corruptForest 1 0 (by decide) (by decide)⟩

/-- C9: a node with no parent answers null from index, startOffset, endOffset,
nextSibling, previousSibling and document, raises nothing, and is its own
root. -/
theorem C9_detached_accessors (f : Forest) (n : NodeId) (fuel : Nat)
    (h : (f n).parent = none) :
    Node.index f n = Except.ok none ∧
    Node.startOffset f n = Except.ok none ∧
    Node.endOffset f n = Except.ok none ∧
    Node.nextSibling f n = Except.ok none ∧
    Node.previousSibling f n = Except.ok none ∧
    Node.document f fuel n = none ∧
    Node.root f fuel n = n := by
  have hroot : Node.root f fuel n = n := by
    cases fuel with
    | zero => rfl
    | succ m => simp [Node.root, Node.rootAux, h]
  refine ⟨?_, ?_, ?_, ?_, ?_, ?_, hroot⟩
  · simp [Node.index, h]
  · simp [Node.startOffset, h]
  · simp [Node.endOffset, h]
  · simp [Node.nextSibling, h]
  · simp [Node.previousSibling, h]
  · simp [Node.document, hroot]

/-- Witness for C9: node 3 of the sample tree is detached. -/
theorem C9_witness :
    (sampleForest 3).parent = none ∧
    (Node.index sampleForest 3 = Except.ok none ∧
      Node.startOffset sampleForest 3 = Except.ok none ∧
      Node.endOffset sampleForest 3 = Except.ok none ∧
      Node.nextSibling sampleForest 3 = Except.ok none ∧
      Node.previousSibling sampleForest 3 = Except.ok none ∧
      Node.document sampleForest 5 3 = none ∧
      Node.root sampleForest 5 3 = 3) :=
  ⟨by decide, C9_detached_accessors sampleForest 3 5 (by decide)⟩

/-- C10: hasAttribute holds exactly when the key occurs among the keys of
getAttributes, independently of the stored value; storing undefined under a
key leaves hasAttribute true while getAttribute answers undefined, so an
undefined getAttribute does not imply a false hasAttribute. -/
theorem C10_hasAttribute_vs_getAttribute :
    (∀ (r : NodeRec) (k : String),
      r.hasAttribute k = true ↔ k ∈ (r.getAttributes).map Prod.fst) ∧
    ((NodeRec.mkNode []).setAttribute "k" JSValue.undef).hasAttribute "k"
        = true ∧
    ((NodeRec.mkNode []).setAttribute "k" JSValue.undef).getAttribute "k"
        = JSValue.undef := by
  refine ⟨?_, by decide, by decide⟩
  intro r k
  exact lookup_isSome_iff_mem_keys r.attrs k

/-- C7: toJSON carries the attributes key exactly when the node has at least
one attribute, and then carries exactly the (key, value) entries; feeding
getAttributes back into the node constructor reproduces the same attribute
map. -/
theorem C7_toJSON_roundtrip (r : NodeRec) (h : MapWF r.attrs) :
    ((r.toJSON).attributes.isSome = true ↔ r.attrs ≠ []) ∧
    (r.attrs ≠ [] → (r.toJSON).attributes = some r.attrs) ∧
    (NodeRec.mkNode (r.getAttributes)).attrs = r.attrs := by
  refine ⟨?_, ?_, ?_⟩
  · unfold NodeRec.toJSON
    by_cases hb : r.attrs = [] <;> simp [hb]
  · intro hne
    unfold NodeRec.toJSON
    simp [List.length_eq_zero, hne]
  · unfold NodeRec.mkNode NodeRec.getAttributes
    simpa using toMap_eq_self r.attrs h

/-- Witness for C7 on a node carrying one attribute. -/
theorem C7_witness :
    MapWF (NodeRec.mkNode [("a", JSValue.str "x")]).attrs ∧
    (((NodeRec.mkNode [("a", JSValue.str "x")]).toJSON).attributes.isSome
          = true ↔
        (NodeRec.mkNode [("a", JSValue.str "x")]).attrs ≠ []) ∧
    ((NodeRec.mkNode [("a", JSValue.str "x")]).attrs ≠ [] →
      ((NodeRec.mkNode [("a", JSValue.str "x")]).toJSON).attributes
          = some (NodeRec.mkNode [("a", JSValue.str "x")]).attrs) ∧
    (NodeRec.mkNode
        ((NodeRec.mkNode [("a", JSValue.str "x")]).getAttributes)).attrs
      = (NodeRec.mkNode [("a", JSValue.str "x")]).attrs :=
  ⟨by decide, C7_toJSON_roundtrip (NodeRec.mkNode [("a", JSValue.str "x")])
    (by decide)⟩

/-- C8: over indents 0..19 the list element priority at indent i is strictly
below the list item priority at indent i, which is strictly below the list
element priority at indent i+1, and all of these priorities are strictly below
80. -/
theorem C8_priorities_interleave (i : Nat) (hi : i ≤ 19)
    (t lid lid2 lid3 : String) :
    (createListElement i t lid).priority
        < (createListItemElement i lid2).priority ∧
    (createListItemElement i lid2).priority
        < (createListElement (i + 1) t lid3).priority ∧
    (createListElement i t lid).priority < 80 ∧
    (createListItemElement i lid2).priority < 80 ∧
    (createListElement (i + 1) t lid3).priority < 80 := by
  simp only [createListElement, createListItemElement, listElementPriority,
    listItemElementPriority]
  omega

/-- Witness for C8 at indent 5. -/
theorem C8_witness :
    5 ≤ 19 ∧
    ((createListElement 5 "numbered" "a").priority
        < (createListItemElement 5 "b").priority ∧
      (createListItemElement 5 "b").priority
        < (createListElement 6 "numbered" "c").priority ∧
      (createListElement 5 "numbered" "a").priority < 80 ∧
      (createListItemElement 5 "b").priority < 80 ∧
      (createListElement 6 "numbered" "c").priority < 80) :=
  ⟨by decide, C8_priorities_interleave 5 (by decide) "numbered" "a" "b" "c"⟩

/-- Membership follows from a successful positional lookup. -/
theorem mem_of_get_some {α : Type} {l : List α} {i : Nat} {a : α}
    (h : l[i]? = some a) : a ∈ l := by
  rcases List.getElem?_eq_some.mp h with ⟨hlt, he⟩
  rw [← he]
  exact List.getElem_mem hlt

/-- Depth is a function of the node: the parent pointer determines the whole
chain. -/
theorem hasDepth_unique {f : Forest} {n : NodeId} {d1 d2 : Nat}
    (h1 : HasDepth f n d1) (h2 : HasDepth f n d2) : d1 = d2 := by
  induction h1 generalizing d2 with
  | root hp =>
    cases h2 with
    | root _ => rfl
    | step hp2 _ => rw [hp] at hp2; cases hp2
  | step hp hd ih =>
    cases h2 with
    | root hp2 => rw [hp2] at hp; cases hp
    | step hp2 hd2 =>
      rw [hp] at hp2
      injection hp2 with hpp
      subst hpp
      exact congrArg Nat.succ (ih hd2)

/-- chainUp from an absent start is empty at any fuel. -/
theorem chainUp_none (f : Forest) (fuel : Nat) :
    Node.chainUp f fuel none = [] := by
  cases fuel <;> rfl

/-- One unfolding of chainUp at positive fuel. -/
theorem chainUp_succ (f : Forest) (fuel : Nat) (n : NodeId) :
    Node.chainUp f (fuel + 1) (some n) = n :: Node.chainUp f fuel (f n).parent :=
  rfl

/-- One unfolding of rootAux at positive fuel. -/
theorem rootAux_succ (f : Forest) (fuel : Nat) (n : NodeId) :
    Node.rootAux f (fuel + 1) n =
      match (f n).parent with
      | none => n
      | some p => Node.rootAux f fuel p :=
  rfl

/-- rootAux fixes a parentless node at any fuel. -/
theorem rootAux_of_parent_none {f : Forest} {n : NodeId}
    (hp : (f n).parent = none) (fuel : Nat) :
    Node.rootAux f fuel n = n := by
  rcases fuel with _ | m
  · rfl
  · rw [rootAux_succ, hp]

/-- rootAux steps to the parent at positive fuel. -/
theorem rootAux_of_parent_some {f : Forest} {n p : NodeId}
    (hp : (f n).parent = some p) (fuel : Nat) :
    Node.rootAux f (fuel + 1) n = Node.rootAux f fuel p := by
  rw [rootAux_succ, hp]

/-- With fuel above the depth, the collected chain has depth + 1 entries. -/
theorem chainUp_length {f : Forest} {n : NodeId} {d : Nat} (h : HasDepth f n d) :
    ∀ fuel, d < fuel → (Node.chainUp f fuel (some n)).length = d + 1 := by
  induction h with
  | @root n hp =>
    intro fuel hf
    rcases fuel with _ | m
    · omega
    · rw [chainUp_succ, hp, chainUp_none]
      rfl
  | @step n p d hp hd ih =>
    intro fuel hf
    rcases fuel with _ | m
    · omega
    · rw [chainUp_succ, hp]
      simp [ih m (by omega)]

/-- With enough fuel on both sides, the collected chain does not depend on the
fuel. -/
theorem chainUp_stable {f : Forest} {n : NodeId} {d : Nat} (h : HasDepth f n d) :
    ∀ fuel1 fuel2, d < fuel1 → d < fuel2 →
      Node.chainUp f fuel1 (some n) = Node.chainUp f fuel2 (some n) := by
  induction h with
  | @root n hp =>
    intro f1 f2 h1 h2
    rcases f1 with _ | m1
    · omega
    rcases f2 with _ | m2
    · omega
    rw [chainUp_succ, chainUp_succ, hp, chainUp_none, chainUp_none]
  | @step n p d hp hd ih =>
    intro f1 f2 h1 h2
    rcases f1 with _ | m1
    · omega
    rcases f2 with _ | m2
    · omega
    rw [chainUp_succ, chainUp_succ, hp, ih m1 m2 (by omega) (by omega)]

/-- With enough fuel on both sides, rootAux does not depend on the fuel. -/
theorem rootAux_stable {f : Forest} {n : NodeId} {d : Nat} (h : HasDepth f n d) :
    ∀ fuel1 fuel2, d < fuel1 → d < fuel2 →
      Node.rootAux f fuel1 n = Node.rootAux f fuel2 n := by
  induction h with
  | @root n hp =>
    intro f1 f2 h1 h2
    rw [rootAux_of_parent_none hp, rootAux_of_parent_none hp]
  | @step n p d hp hd ih =>
    intro f1 f2 h1 h2
    rcases f1 with _ | m1
    · omega
    rcases f2 with _ | m2
    · omega
    rw [rootAux_of_parent_some hp, rootAux_of_parent_some hp]
    exact ih m1 m2 (by omega) (by omega)

/-- The i-th entry of the upward chain from a depth-d node has depth d - i. -/
theorem chainUp_get {f : Forest} {n : NodeId} {d : Nat} (h : HasDepth f n d) :
    ∀ fuel, d < fuel → ∀ i x,
      (Node.chainUp f fuel (some n))[i]? = some x → HasDepth f x (d - i) := by
  induction h with
  | @root n hp =>
    intro fuel hf i x hx
    rcases fuel with _ | m
    · omega
    rw [chainUp_succ, hp, chainUp_none] at hx
    rcases i with _ | j
    · rw [List.getElem?_cons_zero] at hx
      injection hx with hx
      subst hx
      exact HasDepth.root hp
    · rw [List.getElem?_cons_succ] at hx
      simp at hx
  | @step n p d hp hd ih =>
    intro fuel hf i x hx
    rcases fuel with _ | m
    · omega
    rw [chainUp_succ, hp] at hx
    rcases i with _ | j
    · rw [List.getElem?_cons_zero] at hx
      injection hx with hx
      subst hx
      exact HasDepth.step hp hd
    · rw [List.getElem?_cons_succ] at hx
      have := ih m (by omega) j x hx
      simpa [Nat.succ_sub_succ] using this

/-- Inside the upward chain, each entry's parent is the next entry. -/
theorem chainUp_get_parent {f : Forest} {n : NodeId} {d : Nat}
    (h : HasDepth f n d) :
    ∀ fuel, d < fuel → ∀ i x,
      (Node.chainUp f fuel (some n))[i]? = some x → i < d →
      (f x).parent = (Node.chainUp f fuel (some n))[i + 1]? := by
  induction h with
  | @root n hp =>
    intro fuel hf i x hx hid
    omega
  | @step n p d hp hd ih =>
    intro fuel hf i x hx hid
    rcases fuel with _ | m
    · omega
    rw [chainUp_succ, hp] at hx ⊢
    rcases i with _ | j
    · rw [List.getElem?_cons_zero] at hx
      injection hx with hx
      subst hx
      rw [List.getElem?_cons_succ]
      rcases m with _ | m2
      · omega
      rw [chainUp_succ, List.getElem?_cons_zero]
      exact hp
    · rw [List.getElem?_cons_succ] at hx
      rw [List.getElem?_cons_succ]
      exact ih m (by omega) j x hx (by omega)

/-- The final entry of the upward chain is the rootAux result. -/
theorem chainUp_last {f : Forest} {n : NodeId} {d : Nat} (h : HasDepth f n d) :
    ∀ fuel, d < fuel →
      (Node.chainUp f fuel (some n))[d]? = some (Node.rootAux f fuel n) := by
  induction h with
  | @root n hp =>
    intro fuel hf
    rcases fuel with _ | m
    · omega
    rw [chainUp_succ, hp, chainUp_none, rootAux_of_parent_none hp]
    rfl
  | @step n p d hp hd ih =>
    intro fuel hf
    rcases fuel with _ | m
    · omega
    rw [chainUp_succ, hp, rootAux_of_parent_some hp, List.getElem?_cons_succ]
    exact ih m (by omega)

/-- The rootAux result of a finite-depth node is parentless (depth 0). -/
theorem rootAux_hasDepth_zero {f : Forest} {n : NodeId} {d : Nat}
    (h : HasDepth f n d) :
    ∀ fuel, d < fuel → HasDepth f (Node.rootAux f fuel n) 0 := by
  induction h with
  | @root n hp =>
    intro fuel hf
    rw [rootAux_of_parent_none hp]
    exact HasDepth.root hp
  | @step n p d hp hd ih =>
    intro fuel hf
    rcases fuel with _ | m
    · omega
    rw [rootAux_of_parent_some hp]
    exact ih m (by omega)

/-- The reversed upward chain of a depth-d node is a good chain: entries sit
at their own depth and consecutive entries are linked by parent pointers. -/
theorem goodChain_reverse_chainUp {f : Forest} {n : NodeId} {d : Nat}
    (h : HasDepth f n d) (fuel : Nat) (hf : d < fuel) :
    GoodChain f ((Node.chainUp f fuel (some n)).reverse) := by
  have hlen := chainUp_length h fuel hf
  constructor
  · intro i x hx
    have hi : i < (Node.chainUp f fuel (some n)).length := by
      rcases List.getElem?_eq_some.mp hx with ⟨hlt, _⟩
      rw [List.length_reverse] at hlt
      exact hlt
    rw [List.getElem?_reverse hi] at hx
    rw [hlen] at hi hx
    have e1 : d + 1 - 1 - i = d - i := by omega
    rw [e1] at hx
    have := chainUp_get h fuel hf (d - i) x hx
    rwa [Nat.sub_sub_self (by omega)] at this
  · intro i y hy
    have hi1 : i + 1 < (Node.chainUp f fuel (some n)).length := by
      rcases List.getElem?_eq_some.mp hy with ⟨hlt, _⟩
      rw [List.length_reverse] at hlt
      exact hlt
    rw [List.getElem?_reverse hi1] at hy
    rw [hlen] at hi1 hy
    have e1 : d + 1 - 1 - (i + 1) = d - i - 1 := by omega
    rw [e1] at hy
    have hparent := chainUp_get_parent h fuel hf (d - i - 1) y hy (by omega)
    have e2 : d - i - 1 + 1 = d - i := by omega
    rw [e2] at hparent
    rw [List.getElem?_reverse (by rw [hlen]; omega)]
    rw [hlen]
    have e3 : d + 1 - 1 - i = d - i := by omega
    rw [e3]
    exact hparent

/-- The getAncestors chain in root-first order is a good chain for either
value of includeSelf. -/
theorem goodChain_getAncestors (f : Forest) {n : NodeId} {d : Nat} (fuel : Nat)
    (incl : Bool) (h : HasDepth f n d) (hf : d < fuel) :
    GoodChain f (Node.getAncestors f fuel incl false n) := by
  cases incl with
  | true =>
    have : Node.getAncestors f fuel true false n =
        (Node.chainUp f fuel (some n)).reverse := by
      simp [Node.getAncestors]
    rw [this]
    exact goodChain_reverse_chainUp h fuel hf
  | false =>
    have hdef : Node.getAncestors f fuel false false n =
        (Node.chainUp f fuel (f n).parent).reverse := by
      simp [Node.getAncestors]
    rw [hdef]
    cases h with
    | root hp =>
      rw [hp, chainUp_none]
      exact ⟨fun i x hx => by simp at hx, fun i y hy => by simp at hy⟩
    | @step _ p d2 hp hd =>
      rw [hp]
      exact goodChain_reverse_chainUp hd fuel (by omega)

/-- A member of a good chain sits at the position given by its depth. -/
theorem goodChain_mem_get {f : Forest} {ch : List NodeId} (hg : GoodChain f ch)
    {x : NodeId} (hx : x ∈ ch) {k : Nat} (hk : HasDepth f x k) :
    ch[k]? = some x := by
  rcases List.mem_iff_getElem?.mp hx with ⟨j, hj⟩
  have hdj := hg.1 j x hj
  rw [hasDepth_unique hk hdj]
  exact hj

/-- When two good chains agree at position j, they agree at every position up
to j (walking parent pointers downward). -/
theorem goodChain_agree_below {f : Forest} {A B : List NodeId}
    (hA : GoodChain f A) (hB : GoodChain f B) :
    ∀ (j : Nat) (x : NodeId), A[j]? = some x → B[j]? = some x →
      ∀ i : Nat, i ≤ j → A[i]? = B[i]? ∧ (A[i]?).isSome = true := by
  intro j
  induction j with
  | zero =>
    intro x hAx hBx i hi
    have hiz : i = 0 := Nat.le_zero.mp hi
    subst hiz
    exact ⟨hAx.trans hBx.symm, by rw [hAx]; rfl⟩
  | succ j ih =>
    intro x hAx hBx i hi
    by_cases hij : i ≤ j
    · have hparA := hA.2 j x hAx
      have hparB := hB.2 j x hBx
      have hjA : j < A.length := by
        rcases List.getElem?_eq_some.mp hAx with ⟨hlt, _⟩
        omega
      obtain ⟨y, hAj⟩ : ∃ y, A[j]? = some y := by
        rw [List.getElem?_eq_getElem hjA]
        exact ⟨_, rfl⟩
      have hBj : B[j]? = some y := by
        rw [← hparB, hparA]
        exact hAj
      exact ih y hAj hBj i hij
    · have hieq : i = j + 1 := by omega
      subst hieq
      exact ⟨hAx.trans hBx.symm, by rw [hAx]; rfl⟩

/-- Inside the common prefix the two lists agree and are populated. -/
theorem commonPrefixLen_agree :
    ∀ (A B : List NodeId) (j : Nat), j < Node.commonPrefixLen A B →
      A[j]? = B[j]? ∧ (A[j]?).isSome = true := by
  intro A
  induction A with
  | nil =>
    intro B j hj
    rcases B with _ | ⟨b, bs⟩ <;> simp [Node.commonPrefixLen] at hj
  | cons a as ih =>
    intro B j hj
    rcases B with _ | ⟨b, bs⟩
    · simp [Node.commonPrefixLen] at hj
    · by_cases hab : a = b
      · subst hab
        rw [show Node.commonPrefixLen (a :: as) (a :: bs) =
            Node.commonPrefixLen as bs + 1 from by
          simp [Node.commonPrefixLen]] at hj
        rcases j with _ | j2
        · rw [List.getElem?_cons_zero, List.getElem?_cons_zero]
          exact ⟨rfl, rfl⟩
        · rw [List.getElem?_cons_succ, List.getElem?_cons_succ]
          exact ih bs j2 (by omega)
      · rw [show Node.commonPrefixLen (a :: as) (b :: bs) = 0 from by
          simp [Node.commonPrefixLen, hab]] at hj
        omega

/-- At the end of the common prefix, the lists no longer agree on a populated
entry. -/
theorem commonPrefixLen_stop :
    ∀ (A B : List NodeId),
      ¬(A[Node.commonPrefixLen A B]? = B[Node.commonPrefixLen A B]? ∧
        (A[Node.commonPrefixLen A B]?).isSome = true) := by
  intro A
  induction A with
  | nil =>
    intro B
    rintro ⟨heq, hsome⟩
    simp at hsome
  | cons a as ih =>
    intro B
    rcases B with _ | ⟨b, bs⟩
    · rintro ⟨heq, hsome⟩
      rw [show Node.commonPrefixLen (a :: as) ([] : List NodeId) = 0 from rfl]
        at heq
      simp at heq
    · by_cases hab : a = b
      · subst hab
        rw [show Node.commonPrefixLen (a :: as) (a :: bs) =
            Node.commonPrefixLen as bs + 1 from by
          simp [Node.commonPrefixLen]]
        rw [List.getElem?_cons_succ, List.getElem?_cons_succ]
        exact ih bs
      · rw [show Node.commonPrefixLen (a :: as) (b :: bs) = 0 from by
          simp [Node.commonPrefixLen, hab]]
        rintro ⟨heq, _⟩
        rw [List.getElem?_cons_zero, List.getElem?_cons_zero] at heq
        injection heq with heq
        exact hab heq

/-- The root-first getAncestors chain, when non-empty, starts with the
node's root. -/
theorem getAncestors_head_root (f : Forest) {n : NodeId} {d : Nat} (fuel : Nat)
    (incl : Bool) (h : HasDepth f n d) (hf : d < fuel)
    (hne : Node.getAncestors f fuel incl false n ≠ []) :
    (Node.getAncestors f fuel incl false n)[0]? = some (Node.root f fuel n) := by
  cases incl with
  | true =>
    have hdef : Node.getAncestors f fuel true false n =
        (Node.chainUp f fuel (some n)).reverse := by simp [Node.getAncestors]
    rw [hdef]
    have hlen := chainUp_length h fuel hf
    have h0 : 0 < (Node.chainUp f fuel (some n)).length := by rw [hlen]; omega
    rw [List.getElem?_reverse h0, hlen]
    have e1 : d + 1 - 1 - 0 = d := by omega
    rw [e1]
    exact chainUp_last h fuel hf
  | false =>
    cases h with
    | root hp =>
      exfalso
      apply hne
      simp [Node.getAncestors, hp, chainUp_none]
    | @step _ p d2 hp hd =>
      have hdef : Node.getAncestors f fuel false false n =
          (Node.chainUp f fuel (some p)).reverse := by
        simp [Node.getAncestors, hp]
      rw [hdef]
      have hlen := chainUp_length hd fuel (by omega)
      have h0 : 0 < (Node.chainUp f fuel (some p)).length := by rw [hlen]; omega
      rw [List.getElem?_reverse h0, hlen]
      have e1 : d2 + 1 - 1 - 0 = d2 := by omega
      rw [e1]
      have hroot2 : Node.root f fuel n = Node.rootAux f fuel p := by
        rcases fuel with _ | m
        · omega
        show Node.rootAux f (m + 1) n = Node.rootAux f (m + 1) p
        rw [rootAux_of_parent_some hp]
        exact rootAux_stable hd m (m + 1) (by omega) (by omega)
      rw [hroot2]
      exact chainUp_last hd fuel (by omega)

/-- The default getAncestors chain of a depth-d node has exactly d entries. -/
theorem getAncestors_default_length (f : Forest) {n : NodeId} {d : Nat}
    (fuel : Nat) (h : HasDepth f n d) (hf : d < fuel) :
    (Node.getAncestors f fuel false false n).length = d := by
  cases h with
  | root hp => simp [Node.getAncestors, hp, chainUp_none]
  | @step _ p d2 hp hd =>
    have hdef : Node.getAncestors f fuel false false n =
        (Node.chainUp f fuel (some p)).reverse := by
      simp [Node.getAncestors, hp]
    rw [hdef, List.length_reverse, chainUp_length hd fuel (by omega)]

/-- C4: getAncestors with includeSelf and parentFirst lists exactly d + 1
entries for a depth-d node, the node itself first and the root last; with the
default options the node is excluded, d entries remain, and the root comes
first. -/
theorem C4_getAncestors_order (f : Forest) (n : NodeId) (d fuel : Nat)
    (h : HasDepth f n d) (hf : d < fuel) :
    (Node.getAncestors f fuel true true n).length = d + 1 ∧
    (Node.getAncestors f fuel true true n).head? = some n ∧
    (Node.getAncestors f fuel true true n).getLast? =
      some (Node.root f fuel n) ∧
    (Node.getAncestors f fuel false false n).length = d ∧
    n ∉ Node.getAncestors f fuel false false n ∧
    (0 < d →
      (Node.getAncestors f fuel false false n).head? =
        some (Node.root f fuel n)) := by
  have hdefT : Node.getAncestors f fuel true true n =
      Node.chainUp f fuel (some n) := by simp [Node.getAncestors]
  have hlen := chainUp_length h fuel hf
  have hlenF := getAncestors_default_length f fuel h hf
  refine ⟨by rw [hdefT]; exact hlen, ?_, ?_, hlenF, ?_, ?_⟩
  · rw [hdefT, List.head?_eq_getElem?]
    rcases fuel with _ | m
    · omega
    rw [chainUp_succ, List.getElem?_cons_zero]
  · rw [hdefT, List.getLast?_eq_getElem?, hlen]
    have e1 : d + 1 - 1 = d := by omega
    rw [e1]
    exact chainUp_last h fuel hf
  · cases h with
    | root hp => simp [Node.getAncestors, hp, chainUp_none]
    | @step _ p d2 hp hd =>
      have hdefF : Node.getAncestors f fuel false false n =
          (Node.chainUp f fuel (some p)).reverse := by
        simp [Node.getAncestors, hp]
      rw [hdefF]
      intro hmem
      rw [List.mem_reverse] at hmem
      rcases List.mem_iff_getElem?.mp hmem with ⟨j, hj⟩
      have hdj := chainUp_get hd fuel (by omega) j n hj
      have := hasDepth_unique (HasDepth.step hp hd) hdj
      omega
  · intro hd0
    rw [List.head?_eq_getElem?]
    apply getAncestors_head_root f fuel false h hf
    intro hnil
    rw [hnil] at hlenF
    simp at hlenF
    omega

/-- Witness for C4 on the deep tree: node 2 sits at depth 2. -/
theorem C4_witness :
    HasDepth deepForest 2 2 ∧ 2 < 4 ∧
    ((Node.getAncestors deepForest 4 true true 2).length = 2 + 1 ∧
      (Node.getAncestors deepForest 4 true true 2).head? = some 2 ∧
      (Node.getAncestors deepForest 4 true true 2).getLast? =
        some (Node.root deepForest 4 2) ∧
      (Node.getAncestors deepForest 4 false false 2).length = 2 ∧
      2 ∉ Node.getAncestors deepForest 4 false false 2 ∧
      (0 < 2 →
        (Node.getAncestors deepForest 4 false false 2).head? =
          some (Node.root deepForest 4 2))) :=
  ⟨@HasDepth.step deepForest 2 1 1 (by decide)
      (@HasDepth.step deepForest 1 0 0 (by decide)
        (@HasDepth.root deepForest 0 (by decide))),
    by decide,
    C4_getAncestors_order deepForest 2 2 4
      (@HasDepth.step deepForest 2 1 1 (by decide)
        (@HasDepth.step deepForest 1 0 0 (by decide)
          (@HasDepth.root deepForest 0 (by decide))))
      (by decide)⟩

/-- One unfolding of getPathAux at positive fuel. -/
theorem getPathAux_succ (f : Forest) (fuel : Nat) (n : NodeId) :
    Node.getPathAux f (fuel + 1) n =
      match (f n).parent with
      | none => Except.ok []
      | some p =>
        match Node.getChildStartOffset f p n with
        | none => Except.error "model-node-not-found-in-parent"
        | some off =>
          (Node.getPathAux f fuel p).map (fun rest => rest ++ [off]) :=
  rfl

/-- offsetsOf distributes over append. -/
theorem offsetsOf_append (f : Forest) (l1 l2 : List NodeId) :
    offsetsOf f (l1 ++ l2) =
      (offsetsOf f l1).bind
        (fun a => (offsetsOf f l2).map (fun b => a ++ b)) := by
  induction l1 with
  | nil =>
    simp only [List.nil_append, offsetsOf, Option.some_bind]
    cases offsetsOf f l2 <;> simp
  | cons x xs ih =>
    simp only [List.cons_append, offsetsOf, List.append_eq]
    rw [ih]
    cases offsetStepOf f x with
    | none => simp
    | some off =>
      cases offsetsOf f xs with
      | none => simp
      | some a =>
        cases offsetsOf f l2 with
        | none => simp
        | some b => simp

/-- The loop of getPath on a depth-d node whose whole parent chain is intact:
it succeeds with the root-end-first startOffsets of the chain below the root,
one entry per level. -/
theorem getPathAux_spec {f : Forest} {n : NodeId} {d : Nat}
    (h : HasDepth f n d) :
    ∀ fuel, d < fuel →
      (∀ x ∈ Node.chainUp f fuel (some n), inParent f x = true) →
      ∃ path : List Nat,
        Node.getPathAux f fuel n = Except.ok path ∧
        path.length = d ∧
        offsetsOf f ((Node.chainUp f fuel (some n)).reverse.drop 1) =
          some path := by
  induction h with
  | @root n hp =>
    intro fuel hf hall
    rcases fuel with _ | m
    · omega
    refine ⟨[], ?_, rfl, ?_⟩
    · rw [getPathAux_succ, hp]
    · rw [chainUp_succ, hp, chainUp_none]
      simp [offsetsOf]
  | @step n p d hp hd ih =>
    intro fuel hf hall
    rcases fuel with _ | m
    · omega
    have hchain : Node.chainUp f (m + 1) (some n) =
        n :: Node.chainUp f m (some p) := by rw [chainUp_succ, hp]
    have hnp : inParent f n = true := by
      apply hall
      rw [hchain]
      exact List.mem_cons_self n _
    have hmem : n ∈ (f p).children := by
      unfold inParent at hnp
      rw [hp] at hnp
      simpa using hnp
    have hoff : Node.getChildStartOffset f p n =
        some ((((f p).children.take ((f p).children.indexOf n)).map
          (fun c => (f c).offsetSize)).sum) := by
      unfold Node.getChildStartOffset Node.getChildIndex
      simp [hmem]
    obtain ⟨rest, hrest, hlenr, hoffs⟩ :=
      ih m (by omega)
        (fun x hx => hall x (by rw [hchain]; exact List.mem_cons_of_mem n hx))
    refine ⟨rest ++ [(((f p).children.take ((f p).children.indexOf n)).map
      (fun c => (f c).offsetSize)).sum], ?_, by simp [hlenr], ?_⟩
    · rw [getPathAux_succ, hp]
      show (match Node.getChildStartOffset f p n with
        | none => Except.error "model-node-not-found-in-parent"
        | some off =>
          (Node.getPathAux f m p).map (fun rest => rest ++ [off])) = _
      rw [hoff]
      show (Node.getPathAux f m p).map _ = _
      rw [hrest]
      rfl
    · rw [hchain, List.reverse_cons]
      have hlenP : 1 ≤ (Node.chainUp f m (some p)).reverse.length := by
        rw [List.length_reverse, chainUp_length hd m (by omega)]
        omega
      rw [List.drop_append_of_le_length hlenP, offsetsOf_append, hoffs]
      have hn1 : offsetsOf f [n] =
          some [(((f p).children.take ((f p).children.indexOf n)).map
            (fun c => (f c).offsetSize)).sum] := by
        simp only [offsetsOf, offsetStepOf, Node.startOffset, hp, hoff]
        rfl
      rw [hn1]
      rfl

/-- C3: getPath on a depth-d node with an intact ancestor chain returns the
startOffset values of the ancestors from the child of the root down to the
node itself (root end first); a parentless node gets the empty path, and the
path length equals the depth. -/
theorem C3_getPath_offsets (f : Forest) (n : NodeId) (d fuel : Nat)
    (h : HasDepth f n d) (hf : d < fuel)
    (hall : (Node.getAncestors f fuel true false n).all (inParent f) = true) :
    ∃ path : List Nat,
      Node.getPath f fuel n = Except.ok path ∧
      path.length = d ∧
      ((f n).parent = none → path = []) ∧
      offsetsOf f ((Node.getAncestors f fuel true false n).drop 1) =
        some path := by
  have hdef : Node.getAncestors f fuel true false n =
      (Node.chainUp f fuel (some n)).reverse := by simp [Node.getAncestors]
  rw [hdef] at hall ⊢
  rw [List.all_eq_true] at hall
  obtain ⟨path, h1, h2, h3⟩ := getPathAux_spec h fuel hf
    (fun x hx => hall x (by rwa [List.mem_reverse]))
  refine ⟨path, h1, ?_, ?_, h3⟩
  · exact h2
  · intro hpn
    cases h with
    | root hp => exact List.length_eq_zero.mp h2
    | step hp hd => rw [hpn] at hp; cases hp

/-- Witness for C3 on the deep tree: node 2 sits at depth 2 under a chain
whose nodes are all contained in their parents. -/
theorem C3_witness :
    HasDepth deepForest 2 2 ∧ 2 < 4 ∧
    (Node.getAncestors deepForest 4 true false 2).all (inParent deepForest)
        = true ∧
    (∃ path : List Nat,
      Node.getPath deepForest 4 2 = Except.ok path ∧
      path.length = 2 ∧
      ((deepForest 2).parent = none → path = []) ∧
      offsetsOf deepForest ((Node.getAncestors deepForest 4 true false 2).drop 1)
        = some path) :=
  ⟨@HasDepth.step deepForest 2 1 1 (by decide)
      (@HasDepth.step deepForest 1 0 0 (by decide)
        (@HasDepth.root deepForest 0 (by decide))),
    by decide, by decide,
    C3_getPath_offsets deepForest 2 2 4
      (@HasDepth.step deepForest 2 1 1 (by decide)
        (@HasDepth.step deepForest 1 0 0 (by decide)
          (@HasDepth.root deepForest 0 (by decide))))
      (by decide) (by decide)⟩

/-- commonPrefixLen of an empty first list is zero. -/
theorem commonPrefixLen_nil_left (B : List NodeId) :
    Node.commonPrefixLen [] B = 0 := by
  cases B <;> rfl

/-- C5: for two nodes under the same root, getCommonAncestor returns the
deepest node occurring in both getAncestors chains (whenever any common node
occurs at all, for either includeSelf setting); for nodes with different
roots it returns none.  The function is total — no error channel exists. -/
theorem C5_getCommonAncestor_deepest (f : Forest) (a b : NodeId)
    (da db fuel : Nat) (incl : Bool)
    (ha : HasDepth f a da) (hb : HasDepth f b db)
    (hfa : da < fuel) (hfb : db < fuel) :
    (Node.root f fuel a = Node.root f fuel b →
      ∀ x, x ∈ Node.getAncestors f fuel incl false a →
        x ∈ Node.getAncestors f fuel incl false b →
        ∃ r, Node.getCommonAncestor f fuel incl false a b = some r ∧
          r ∈ Node.getAncestors f fuel incl false a ∧
          r ∈ Node.getAncestors f fuel incl false b ∧
          ∀ (y : NodeId) (dy dr : Nat),
            y ∈ Node.getAncestors f fuel incl false a →
            y ∈ Node.getAncestors f fuel incl false b →
            HasDepth f y dy → HasDepth f r dr → dy ≤ dr) ∧
    (Node.root f fuel a ≠ Node.root f fuel b →
      Node.getCommonAncestor f fuel incl false a b = none) := by
  set A := Node.getAncestors f fuel incl false a with hAdef
  set B := Node.getAncestors f fuel incl false b with hBdef
  have hgA : GoodChain f A := goodChain_getAncestors f fuel incl ha hfa
  have hgB : GoodChain f B := goodChain_getAncestors f fuel incl hb hfb
  have hres : Node.getCommonAncestor f fuel incl false a b =
      (if Node.commonPrefixLen A B = 0 then none
       else A[Node.commonPrefixLen A B - 1]?) := rfl
  have key : ∀ x, x ∈ A → x ∈ B → ∀ k, HasDepth f x k →
      k < Node.commonPrefixLen A B := by
    intro x hxA hxB k hk
    have hAx := goodChain_mem_get hgA hxA hk
    have hBx := goodChain_mem_get hgB hxB hk
    by_contra hge
    push_neg at hge
    exact commonPrefixLen_stop A B
      (goodChain_agree_below hgA hgB k x hAx hBx _ hge)
  constructor
  · intro _ x hxA hxB
    obtain ⟨kx, hkx⟩ : ∃ k, HasDepth f x k := by
      rcases List.mem_iff_getElem?.mp hxA with ⟨j, hj⟩
      exact ⟨j, hgA.1 j x hj⟩
    have hcpl : 0 < Node.commonPrefixLen A B := by
      have := key x hxA hxB kx hkx
      omega
    have hagree := commonPrefixLen_agree A B
      (Node.commonPrefixLen A B - 1) (by omega)
    obtain ⟨r, hr⟩ := Option.isSome_iff_exists.mp hagree.2
    refine ⟨r, ?_, ?_, ?_, ?_⟩
    · rw [hres, if_neg (by omega), hr]
    · exact mem_of_get_some hr
    · exact mem_of_get_some (hagree.1 ▸ hr)
    · intro y dy dr hyA hyB hdy hdr
      have hylt := key y hyA hyB dy hdy
      have hrd : HasDepth f r (Node.commonPrefixLen A B - 1) := hgA.1 _ r hr
      have := hasDepth_unique hdr hrd
      omega
  · intro hroot
    rw [hres]
    by_cases hz : Node.commonPrefixLen A B = 0
    · rw [if_pos hz]
    · exfalso
      have hagree := commonPrefixLen_agree A B 0 (by omega)
      have hAne : A ≠ [] := by
        intro hnil
        rw [hnil] at hagree
        simp at hagree
      have hBne : B ≠ [] := by
        intro hnil
        rcases hagree with ⟨heq, hsome⟩
        rw [hnil] at heq
        rw [heq] at hsome
        simp at hsome
      have hAh := getAncestors_head_root f fuel incl ha hfa hAne
      have hBh := getAncestors_head_root f fuel incl hb hfb hBne
      apply hroot
      rcases hagree with ⟨heq, _⟩
      rw [← hAdef] at hAh
      rw [← hBdef] at hBh
      rw [hAh, hBh] at heq
      injection heq

/-- Witness for C5 on the deep tree: nodes 2 and 3 share root 0; with
includeSelf their deepest common ancestor is their parent 1. -/
theorem C5_witness :
    HasDepth deepForest 2 2 ∧ HasDepth deepForest 3 2 ∧ 2 < 4 ∧ 2 < 4 ∧
    ((Node.root deepForest 4 2 = Node.root deepForest 4 3 →
      ∀ x, x ∈ Node.getAncestors deepForest 4 true false 2 →
        x ∈ Node.getAncestors deepForest 4 true false 3 →
        ∃ r, Node.getCommonAncestor deepForest 4 true false 2 3 = some r ∧
          r ∈ Node.getAncestors deepForest 4 true false 2 ∧
          r ∈ Node.getAncestors deepForest 4 true false 3 ∧
          ∀ (y : NodeId) (dy dr : Nat),
            y ∈ Node.getAncestors deepForest 4 true false 2 →
            y ∈ Node.getAncestors deepForest 4 true false 3 →
            HasDepth deepForest y dy → HasDepth deepForest r dr → dy ≤ dr) ∧
    (Node.root deepForest 4 2 ≠ Node.root deepForest 4 3 →
      Node.getCommonAncestor deepForest 4 true false 2 3 = none)) :=
  ⟨@HasDepth.step deepForest 2 1 1 (by decide)
      (@HasDepth.step deepForest 1 0 0 (by decide)
        (@HasDepth.root deepForest 0 (by decide))),
    @HasDepth.step deepForest 3 1 1 (by decide)
      (@HasDepth.step deepForest 1 0 0 (by decide)
        (@HasDepth.root deepForest 0 (by decide))),
    by decide, by decide,
    C5_getCommonAncestor_deepest deepForest 2 3 2 2 4 true
      (@HasDepth.step deepForest 2 1 1 (by decide)
        (@HasDepth.step deepForest 1 0 0 (by decide)
          (@HasDepth.root deepForest 0 (by decide))))
      (@HasDepth.step deepForest 3 1 1 (by decide)
        (@HasDepth.step deepForest 1 0 0 (by decide)
          (@HasDepth.root deepForest 0 (by decide))))
      (by decide) (by decide)⟩

/-- C6: for two parentless nodes, getCommonAncestor answers none when
includeSelf is false — also when the two are the same root — and answers the
root itself when both are that same root and includeSelf is true. -/
theorem C6_getCommonAncestor_roots (f : Forest) (a b : NodeId) (fuel : Nat)
    (pf : Bool) (ha : (f a).parent = none) (hb : (f b).parent = none)
    (hfuel : 0 < fuel) :
    Node.getCommonAncestor f fuel false pf a b = none ∧
    (a = b → Node.getCommonAncestor f fuel true pf a b = some a) := by
  constructor
  · have hA : Node.getAncestors f fuel false pf a = [] := by
      cases pf <;> simp [Node.getAncestors, ha, chainUp_none]
    rw [show Node.getCommonAncestor f fuel false pf a b =
        (if Node.commonPrefixLen (Node.getAncestors f fuel false pf a)
            (Node.getAncestors f fuel false pf b) = 0 then none
         else (Node.getAncestors f fuel false pf a)[
            Node.commonPrefixLen (Node.getAncestors f fuel false pf a)
              (Node.getAncestors f fuel false pf b) - 1]?) from rfl]
    rw [hA, commonPrefixLen_nil_left]
    rfl
  · intro hab
    subst hab
    have hA : Node.getAncestors f fuel true pf a = [a] := by
      rcases fuel with _ | m
      · omega
      cases pf <;> simp [Node.getAncestors, chainUp_succ, ha, chainUp_none]
    rw [show Node.getCommonAncestor f fuel true pf a a =
        (if Node.commonPrefixLen (Node.getAncestors f fuel true pf a)
            (Node.getAncestors f fuel true pf a) = 0 then none
         else (Node.getAncestors f fuel true pf a)[
            Node.commonPrefixLen (Node.getAncestors f fuel true pf a)
              (Node.getAncestors f fuel true pf a) - 1]?) from rfl]
    rw [hA]
    have h1 : Node.commonPrefixLen [a] [a] = 1 := by
      simp [Node.commonPrefixLen, commonPrefixLen_nil_left]
    rw [h1]
    rfl

/-- Witness for C6: node 3 of the sample tree is a root; compared with itself,
includeSelf false answers none and includeSelf true answers the node. -/
theorem C6_witness :
    (sampleForest 3).parent = none ∧ (sampleForest 3).parent = none ∧
    0 < 1 ∧
    (Node.getCommonAncestor sampleForest 1 false false 3 3 = none ∧
      (3 = 3 → Node.getCommonAncestor sampleForest 1 true false 3 3 = some 3)) :=
  ⟨by decide, by decide, by decide,
    C6_getCommonAncestor_roots sampleForest 3 3 1 false (by decide) (by decide)
      (by decide)⟩
